import Mathlib

/-
Verification of the js8rs audio-to-spectrogram pipeline.

The repository contains two variants of the pipeline:
  * a modular variant in src/app/ (mod.rs, audio.rs, visualization.rs, ui.rs),
    with a parametric fft_size, linear per-row normalization, grayscale colors,
    a bounded 100-row history, and a 160 ms rate-limit gate in the capture
    callback;
  * a monolithic variant in src/app.rs, with FFT_SIZE = 2400, logarithmic
    normalization against the global running peak, red-channel colors, and a
    history that is cleared before each push.

Modelling conventions:
  * f32 samples, magnitudes and peaks are modelled as exact rationals; the
    rounding of finite f32 arithmetic is not modelled, and every concrete
    value evaluated in a theorem below is exactly representable, so the
    idealization is immaterial to the statements proved.
  * The two places where an f32 value can be non-finite (division by a zero
    denominator, and multiplication of the result by 255.0) are modelled by
    the type F32 with explicit NaN and signed-infinity values, following the
    IEEE-754 special-value rules, because several claims are precisely about
    NaN / division by zero.
  * The FFT object (rustfft plan) and the complex norm |X_k| produce
    irrational values in general, so process_audio_data is parametrized by a
    function rawValues : List Q -> List Q mapping the full buffer to the list
    of bin magnitudes, exactly as the Rust function is parametrized by the
    fft object it receives.  For fft_size = 1 the genuine forward transform
    is the identity and the norm of a real sample x is |x|, so the concrete
    instantiation rawOf1 below is the exact composition of lines 125-132 of
    src/app/audio.rs at that size.
  * A Rust panic (the out-of-bounds index samples[1] on a trailing length-1
    chunk) is modelled by Option: none means the call panicked.
-/

namespace Js8

/-- egui Color32 as produced by Color32::from_rgb (alpha is always 255 and
never read by this program, so it is omitted).  Fields are the 8-bit channel
values. -/
structure Color32 where
  r : ℕ
  g : ℕ
  b : ℕ
deriving DecidableEq, Repr

/-- Shape of an IEEE-754 single-precision value: NaN, a signed infinity
(true = positive), or a finite value carried as an exact rational. -/
inductive F32 where
  | nan : F32
  | inf : Bool → F32
  | fin : ℚ → F32
deriving DecidableEq, Repr

/-- IEEE-754 division on the F32 model.  The model has no negative zero, so a
zero denominator behaves as +0.  Finite / finite division is exact instead of
rounded. -/
def F32.div : F32 → F32 → F32
  | F32.nan, _ => F32.nan
  | _, F32.nan => F32.nan
  | F32.inf _, F32.inf _ => F32.nan
  | F32.inf s, F32.fin q => if q < 0 then F32.inf (!s) else F32.inf s
  | F32.fin _, F32.inf _ => F32.fin 0
  | F32.fin a, F32.fin b =>
    if b = 0 then
      if a = 0 then F32.nan else if 0 < a then F32.inf true else F32.inf false
    else F32.fin (a / b)

/-- IEEE-754 multiplication of an F32 by a finite constant (used for the
single source expression x * 255.0). -/
def F32.mulc : F32 → ℚ → F32
  | F32.nan, _ => F32.nan
  | F32.inf s, c => if c = 0 then F32.nan else if c < 0 then F32.inf (!s) else F32.inf s
  | F32.fin a, c => F32.fin (a * c)

/-- Rust numeric cast expression `x as u8` on an f32 value: NaN casts to 0,
the value is truncated toward zero and saturated to the range 0..=255. -/
def f32toU8 : F32 → ℕ
  | F32.nan => 0
  | F32.inf s => if s then 255 else 0
  | F32.fin q => if q ≤ 0 then 0 else if (255 : ℚ) ≤ q then 255 else q.floor.toNat

/-- f32::MIN, the seed of the running fold computing the row maximum:
-(2^128 - 2^104). -/
def f32MIN : ℚ := -(2 ^ 128 - 2 ^ 104)

/-- The stereo-to-mono loop body of process_audio_data (both variants):
`for samples in data.chunks(2) { ... (samples[0] + samples[1]) / 2.0 ... }`.
chunks(2) yields a final chunk of length 1 when the frame length is odd, and
samples[1] is then an out-of-bounds index: the call panics, modelled as
none.  (The source interleaves each mono sample with the ring-buffer push;
separating the two is observationally identical for the even-length frames
on which the loop completes.) -/
def downmixChunks : List ℚ → Option (List ℚ)
  | [] => some []
  | [_] => none
  | a :: b :: rest => (downmixChunks rest).map (fun t => (a + b) / 2 :: t)

/-- One ring-buffer insertion of process_audio_data:
`if audio_data.len() == fft_size { audio_data.pop_front(); }
 audio_data.push_back(mono_sample);`. -/
def ringPush {α : Type} (n : ℕ) (buf : List α) (s : α) : List α :=
  (if buf.length = n then buf.tail else buf) ++ [s]

/-- The ring-buffer insertions performed for a whole list of mono samples. -/
def ringPushAll {α : Type} (n : ℕ) (buf : List α) (samples : List α) : List α :=
  samples.foldl (ringPush n) buf

/-- The history update of the modular process_audio_data
(src/app/audio.rs lines 148-152):
`row_colors.push(colors); if row_colors.len() > 100 { row_colors.remove(0); }`. -/
def push_row (rows : List (List Color32)) (row : List Color32) : List (List Color32) :=
  let rs := rows ++ [row]
  if 100 < rs.length then rs.tail else rs

/-- Folding push_row over a sequence of produced rows. -/
def push_rowAll (rows : List (List Color32)) (pushes : List (List Color32)) :
    List (List Color32) :=
  pushes.foldl push_row rows

/-- The normalization step of the modular variant (src/app/audio.rs line 138):
`raw_values.iter().map(|&x| x / max_value)`, with IEEE division semantics. -/
def normalized_values (raw : List ℚ) (mx : ℚ) : List F32 :=
  raw.map (fun x => F32.div (F32.fin x) (F32.fin mx))

/-- `Color32::from_rgb(intensity, intensity, intensity)`
(src/app/audio.rs line 144). -/
def grayColor (i : ℕ) : Color32 :=
  Color32.mk i i i

/-- The triple of shared values written back by process_audio_data: the
returned running maximum, the ring buffer, and the row history. -/
structure ProcResult where
  max_value : ℚ
  audio_data : List ℚ
  row_colors : List (List Color32)
deriving DecidableEq, Repr

/-- Js8App::process_audio_data of the modular variant
(src/app/audio.rs lines 105-158).  rawValues stands for the composition of
lines 125-132 (buffer to complex, fft.process_with_scratch, c.norm()); see
the file header.  none models the panic on an odd-length frame. -/
def process_audio_data (fft_size : ℕ) (rawValues : List ℚ → List ℚ)
    (global_max_value : ℚ) (data : List ℚ) (audio_data : List ℚ)
    (row_colors : List (List Color32)) : Option ProcResult :=
  (downmixChunks data).map fun monos =>
    let audio_data := ringPushAll fft_size audio_data monos
    if audio_data.length = fft_size then
      let raw_values := rawValues audio_data
      let max_value := raw_values.foldl max f32MIN
      let colors := (normalized_values raw_values max_value).map fun x =>
        grayColor (f32toU8 (F32.mulc x 255))
      ProcResult.mk max_value audio_data (push_row row_colors colors)
    else
      ProcResult.mk global_max_value audio_data row_colors

/-- FFT_SIZE of the monolithic variant (src/app.rs line 10). -/
def FFT_SIZE : ℕ := 2400

/-- Js8App::process_audio_data of the monolithic variant
(src/app.rs lines 131-182).  log10 stands for f32::log10, whose values are
irrational; the claims settled against this function do not depend on it.
The history is cleared and then receives exactly the one new row
(`row_colors.clear(); row_colors.push(...)`), and the returned peak is
`if max_value > global_max_value { max_value } else { global_max_value }`. -/
def process_audio_data_mono (rawValues : List ℚ → List ℚ) (log10 : ℚ → ℚ)
    (global_max_value : ℚ) (data : List ℚ) (audio_data : List ℚ)
    (row_colors : List (List Color32)) : Option ProcResult :=
  (downmixChunks data).map fun monos =>
    let audio_data := ringPushAll FFT_SIZE audio_data monos
    if audio_data.length = FFT_SIZE then
      let raw_values := rawValues audio_data
      let max_value := raw_values.foldl max f32MIN
      let colors := raw_values.map fun v =>
        let log_value := log10 (v + 1)
        let scaled_value :=
          F32.div (F32.fin log_value) (F32.fin (log10 (global_max_value + 1)))
        Color32.mk (f32toU8 (F32.mulc scaled_value 255)) 0 0
      if global_max_value < max_value then ProcResult.mk max_value audio_data [colors]
      else ProcResult.mk global_max_value audio_data [colors]
    else
      ProcResult.mk global_max_value audio_data row_colors

/-- The mutable state captured by the modular input callback: the rate-limit
timestamp last_update (a time in seconds), and the three shared buffers. -/
structure CallbackState where
  last_update : ℚ
  max_value : ℚ
  audio_data : List ℚ
  row_colors : List (List Color32)
deriving DecidableEq, Repr

/-- The input_callback closure of the modular variant
(src/app/audio.rs lines 44-68).  now is the current time in seconds, so
`last_update.elapsed()` is now - last_update; 16/100 stands for
Duration::from_secs_f32(0.16).  The entire body is guarded by the gate: a
call inside the gate does nothing at all.  none models a panic escaping the
callback. -/
def input_callback (fft_size : ℕ) (rawValues : List ℚ → List ℚ) (now : ℚ)
    (data : List ℚ) (st : CallbackState) : Option CallbackState :=
  if 16 / 100 ≤ now - st.last_update then
    (process_audio_data fft_size rawValues st.max_value data st.audio_data
        st.row_colors).map fun r =>
      CallbackState.mk now r.max_value r.audio_data r.row_colors
  else
    some st

/-- The only state mutation in the render path: the trailing trim of
draw_waterfall (src/app/visualization.rs lines 82-86):
`if row_colors_len > max_rows_to_display
   { row_colors.drain(0..(row_colors_len - max_rows_to_display)); }`
with max_rows_to_display = 100.  draw_bar_chart and the rest of
draw_waterfall only read row_colors (and touch neither the ring buffer nor
the running peak, which they never lock). -/
def waterfall_trim (rows : List (List Color32)) : List (List Color32) :=
  if 100 < rows.length then rows.drop (rows.length - 100) else rows

/-- The genuine rawValues function at fft_size = 1: the size-1 forward DFT is
the identity and the norm of the real sample x is |x|. -/
def rawOf1 : List ℚ → List ℚ :=
  fun l => l.map (fun x => |x|)

end Js8

namespace Js8

/-! ### Helper lemmas (shared infrastructure, not claim theorems) -/

theorem ringPush_length {α : Type} (n : ℕ) (buf : List α) (s : α) :
    (ringPush n buf s).length =
      (if buf.length = n then buf.length - 1 else buf.length) + 1 := by
  unfold ringPush
  split
  · simp [List.length_tail]
  · simp

theorem ringPush_length_le {α : Type} {n : ℕ} (hn : 0 < n) {buf : List α} (s : α)
    (h : buf.length ≤ n) : (ringPush n buf s).length ≤ n := by
  rw [ringPush_length]
  split <;> omega

theorem ringPushAll_eq_drop {α : Type} (n : ℕ) (hn : 0 < n) (samples : List α) :
    ∀ buf : List α, buf.length ≤ n →
      ringPushAll n buf samples =
        (buf ++ samples).drop (buf.length + samples.length - n) := by
  induction samples with
  | nil =>
    intro buf h
    have hz : buf.length - n = 0 := by omega
    simp [ringPushAll, hz]
  | cons s rest ih =>
    intro buf h
    have hstep : ringPushAll n buf (s :: rest) = ringPushAll n (ringPush n buf s) rest := rfl
    rw [hstep]
    by_cases he : buf.length = n
    · obtain ⟨x, xs, rfl⟩ : ∃ x xs, buf = x :: xs := by
        cases buf with
        | nil =>
          exfalso
          simp at he
          omega
        | cons x xs => exact ⟨x, xs, rfl⟩
      have htail : ringPush n (x :: xs) s = xs ++ [s] := by
        simp [ringPush, he]
      have hlen : (xs ++ [s]).length ≤ n := by
        simp at he ⊢
        omega
      rw [htail, ih _ hlen]
      have h1 : (xs ++ [s]).length + rest.length - n = rest.length := by
        simp at he ⊢
        omega
      have h2 : (x :: xs).length + (s :: rest).length - n = rest.length + 1 := by
        simp at he ⊢
        omega
      rw [h1, h2, List.append_assoc, List.singleton_append, List.cons_append,
        List.drop_succ_cons]
    · have hps : ringPush n buf s = buf ++ [s] := by
        simp [ringPush, he]
      have hlen : (buf ++ [s]).length ≤ n := by
        simp
        omega
      rw [hps, ih _ hlen]
      have h1 : (buf ++ [s]).length + rest.length - n =
          buf.length + (s :: rest).length - n := by
        simp
        omega
      rw [h1, List.append_assoc, List.singleton_append]

theorem push_row_eq_ringPush (rows : List (List Color32)) (row : List Color32)
    (h : rows.length ≤ 100) : push_row rows row = ringPush 100 rows row := by
  by_cases he : rows.length = 100
  · obtain ⟨x, xs, rfl⟩ : ∃ x xs, rows = x :: xs := by
      cases rows with
      | nil => simp at he
      | cons x xs => exact ⟨x, xs, rfl⟩
    have h101 : 100 < ((x :: xs) ++ [row]).length := by
      simp at he ⊢
      omega
    simp only [push_row, ringPush]
    rw [if_pos h101, if_pos he]
    rfl
  · have hno : ¬ 100 < (rows ++ [row]).length := by
      simp
      omega
    simp only [push_row, ringPush]
    rw [if_neg hno, if_neg he]

theorem push_rowAll_eq_ringPushAll (pushes : List (List Color32)) :
    ∀ rows : List (List Color32), rows.length ≤ 100 →
      push_rowAll rows pushes = ringPushAll 100 rows pushes := by
  induction pushes with
  | nil =>
    intro rows _
    rfl
  | cons p rest ih =>
    intro rows h
    have h1 : push_rowAll rows (p :: rest) = push_rowAll (push_row rows p) rest := rfl
    have h2 : ringPushAll 100 rows (p :: rest) =
        ringPushAll 100 (ringPush 100 rows p) rest := rfl
    rw [h1, h2, push_row_eq_ringPush rows p h]
    exact ih _ (ringPush_length_le (by norm_num) p h)

theorem push_rowAll_nil_length_le (pushes : List (List Color32)) :
    (push_rowAll [] pushes).length ≤ 100 := by
  rw [push_rowAll_eq_ringPushAll pushes [] (by simp)]
  have he := ringPushAll_eq_drop 100 (by norm_num) pushes ([] : List (List Color32)) (by simp)
  simp only [List.nil_append, List.length_nil, Nat.zero_add] at he
  rw [he, List.length_drop]
  omega

theorem foldl_max_bounds (l : List ℚ) :
    ∀ a : ℚ, a ≤ l.foldl max a ∧ ∀ x ∈ l, x ≤ l.foldl max a := by
  induction l with
  | nil =>
    intro a
    simp
  | cons y t ih =>
    intro a
    have h1 := ih (max a y)
    simp only [List.foldl_cons]
    refine ⟨le_trans (le_max_left a y) h1.1, ?_⟩
    intro x hx
    rcases List.mem_cons.mp hx with h | h
    · subst h
      exact le_trans (le_max_right a x) h1.1
    · exact h1.2 x h

theorem mem_of_mem_push_row {rows : List (List Color32)} {x row : List Color32}
    (h : row ∈ push_row rows x) : row ∈ rows ∨ row = x := by
  simp only [push_row] at h
  split at h
  · have h2 := List.mem_of_mem_tail h
    rcases List.mem_append.mp h2 with h3 | h3
    · exact Or.inl h3
    · exact Or.inr (List.mem_singleton.mp h3)
  · rcases List.mem_append.mp h with h3 | h3
    · exact Or.inl h3
    · exact Or.inr (List.mem_singleton.mp h3)

end Js8

namespace Js8

/-! ### Claim theorems -/

/-- Claim C7 (confirmed): for every sequence of pushes into the sample ring
buffer (capacity fft_size, at least 1 as configured), the length never
exceeds fft_size, and once at least fft_size samples have been pushed the
buffer holds exactly the last fft_size pushed samples in arrival order (the
oldest evicted first). -/
theorem ring_buffer_bounded_fifo (fft_size : ℕ) (samples : List ℚ)
    (h : 0 < fft_size) :
    (ringPushAll fft_size ([] : List ℚ) samples).length ≤ fft_size ∧
    (fft_size ≤ samples.length →
      ringPushAll fft_size ([] : List ℚ) samples =
        samples.drop (samples.length - fft_size)) := by
  have he := ringPushAll_eq_drop fft_size h samples ([] : List ℚ) (by simp)
  simp only [List.nil_append, List.length_nil, Nat.zero_add] at he
  refine ⟨?_, fun _ => he⟩
  rw [he, List.length_drop]
  omega

/-- Witness for C7 at fft_size 2 and pushes [5, 6, 7]. -/
theorem ring_buffer_bounded_fifo_witness :
    ringPushAll 2 ([] : List ℚ) [5, 6, 7] =
      ([5, 6, 7] : List ℚ).drop (([5, 6, 7] : List ℚ).length - 2) :=
  (ring_buffer_bounded_fifo 2 [5, 6, 7] (by norm_num)).2 (by simp)

/-- Claim C8 (confirmed): for every sequence of push_row operations on the
visualization history starting from the empty history, the length stays at
most 100, and after at least 100 pushes the history holds exactly the most
recent 100 rows, oldest evicted first.  (This is the modular variant, whose
push_row is src/app/audio.rs lines 148-152; the monolithic variant in
src/app.rs does not push at all: it clears the history and keeps only the
single latest row.) -/
theorem history_bounded_fifo (pushes : List (List Color32)) :
    (push_rowAll [] pushes).length ≤ 100 ∧
    (100 ≤ pushes.length →
      push_rowAll [] pushes = pushes.drop (pushes.length - 100)) := by
  rw [push_rowAll_eq_ringPushAll pushes [] (by simp)]
  have he := ringPushAll_eq_drop 100 (by norm_num) pushes
    ([] : List (List Color32)) (by simp)
  simp only [List.nil_append, List.length_nil, Nat.zero_add] at he
  refine ⟨?_, fun _ => he⟩
  rw [he, List.length_drop]
  omega

/-- Witness for C8 at 101 pushes of an empty row. -/
theorem history_bounded_fifo_witness :
    push_rowAll [] (List.replicate 101 ([] : List Color32)) =
      (List.replicate 101 ([] : List Color32)).drop
        ((List.replicate 101 ([] : List Color32)).length - 100) :=
  (history_bounded_fifo (List.replicate 101 ([] : List Color32))).2 (by simp)

/-- Claim C6 counterexample: on a history of 101 rows, the trim step at the
end of draw_waterfall (src/app/visualization.rs lines 82-86) changes the
history, so the render path does mutate pipeline state as a function of an
arbitrary state. -/
theorem render_mutates_at_101_rows :
    waterfall_trim (List.replicate 101 ([] : List Color32)) ≠
      List.replicate 101 ([] : List Color32) := by
  intro h
  have hl := congrArg List.length h
  rw [waterfall_trim] at hl
  simp at hl

/-- Claim C6 (amended): draw_bar_chart only reads the history, and the one
mutation in draw_waterfall (the oldest-first trim to 100 rows) is the
identity on every history reachable through the pipeline, because the
pipeline's own push_row already keeps the history at no more than 100 rows;
hence a render call leaves the committed rows (and the ring buffer and
running peak, which the render path never touches) unchanged in every
reachable state. -/
theorem render_preserves_reachable_history (pushes : List (List Color32)) :
    waterfall_trim (push_rowAll [] pushes) = push_rowAll [] pushes := by
  rw [waterfall_trim, if_neg]
  have := push_rowAll_nil_length_le pushes
  omega

end Js8

namespace Js8

/-- Claim C1 counterexample: a capture-callback invocation arriving 0.1 s
after the previous update (inside the 0.16 s gate) with the non-empty frame
[2, 4] leaves the ring buffer empty, although the frame downmixes to the
mono sample 3 which the claim says is appended even inside the gate. -/
theorem gate_closed_counterexample :
    input_callback 1 rawOf1 (1 / 10) [2, 4] (CallbackState.mk 0 0 [] []) =
      some (CallbackState.mk 0 0 [] []) ∧
    downmixChunks [2, 4] = some [3] ∧
    (CallbackState.mk 0 0 ([] : List ℚ) []).audio_data ≠
      ringPushAll 1 (CallbackState.mk 0 0 ([] : List ℚ) []).audio_data [3] := by
  refine ⟨?_, ?_, ?_⟩
  · norm_num [input_callback]
  · norm_num [downmixChunks]
  · simp [ringPushAll, ringPush]

/-- Claim C1 (amended): invocations of the capture callback arriving inside
the 160 ms gate are skipped entirely — the shared state, ring buffer
included, is left untouched and the frame's samples are dropped; only an
invocation arriving with the gate open appends the downmixed samples of its
frame to the ring buffer (and runs the transform and row stages). -/
theorem gate_closed_drops_frame (fft_size : ℕ) (rawValues : List ℚ → List ℚ)
    (now : ℚ) (data : List ℚ) (st : CallbackState) :
    (now - st.last_update < 16 / 100 →
      input_callback fft_size rawValues now data st = some st) ∧
    (∀ monos r, downmixChunks data = some monos →
      input_callback fft_size rawValues now data st = some r →
      r.audio_data = ringPushAll fft_size st.audio_data monos ∨ r = st) := by
  constructor
  · intro h
    rw [input_callback, if_neg (not_le.mpr h)]
  · intro monos r hdm hcb
    rw [input_callback] at hcb
    split at hcb
    · left
      rw [process_audio_data, hdm] at hcb
      simp only [Option.map_some', Option.some_inj] at hcb
      subst hcb
      dsimp only
      split <;> rfl
    · right
      exact (Option.some_inj.mp hcb).symm

/-- Witness for C1 (amended): the gate-closed half at a call 0.1 s after the
last update, and the gate-open half at a call 1 s after the last update with
frame [6, 8], whose downmixed sample 7 is appended. -/
theorem gate_closed_drops_frame_witness :
    input_callback 1 rawOf1 (1 / 10) [6, 8] (CallbackState.mk 0 0 [] []) =
      some (CallbackState.mk 0 0 [] []) ∧
    ((CallbackState.mk 1 7 [7] [[grayColor 255]]).audio_data =
        ringPushAll 1 ([] : List ℚ) [7] ∨
      CallbackState.mk 1 7 [7] [[grayColor 255]] = CallbackState.mk 0 0 [] []) := by
  constructor
  · exact (gate_closed_drops_frame 1 rawOf1 (1 / 10) [6, 8]
      (CallbackState.mk 0 0 [] [])).1 (by norm_num)
  · exact (gate_closed_drops_frame 1 rawOf1 1 [6, 8] (CallbackState.mk 0 0 [] [])).2
      [7] (CallbackState.mk 1 7 [7] [[grayColor 255]])
      (by norm_num [downmixChunks])
      (by norm_num [input_callback, process_audio_data, downmixChunks, ringPushAll,
        ringPush, normalized_values, F32.div, F32.mulc, f32toU8, grayColor, push_row,
        rawOf1, f32MIN, max_def])

/-- Claim C4 (code bug): on a frame whose length is odd (here the one-sample
frame [1/2]), the downmix loop's trailing chunk has length 1 and the index
expression samples[1] is out of bounds: the call panics (modelled as none)
instead of discarding the trailing group with a warning, and the panic
escapes the capture callback. -/
theorem odd_frame_panics :
    downmixChunks [(1 : ℚ) / 2] = none ∧
    process_audio_data 1 rawOf1 0 [(1 : ℚ) / 2] [] [] = none ∧
    input_callback 1 rawOf1 1 [(1 : ℚ) / 2] (CallbackState.mk 0 0 [] []) = none := by
  refine ⟨rfl, ?_, ?_⟩
  · norm_num [process_audio_data, downmixChunks]
  · norm_num [input_callback, process_audio_data, downmixChunks]

end Js8

namespace Js8

/-- Claim C2 counterexample: a session at fft_size 1 whose first update sees
the frame [8, 8] (spectrum max 8) and whose second sees [2, 2] (spectrum max
2).  The modular process_audio_data returns 8 and then 2: the running peak
decreases, because the code returns the new spectrum maximum alone instead
of max(previous, new). -/
theorem peak_decreases_counterexample :
    process_audio_data 1 rawOf1 0 [8, 8] [] [] =
      some (ProcResult.mk 8 [8] [[grayColor 255]]) ∧
    process_audio_data 1 rawOf1 8 [2, 2] [8] [[grayColor 255]] =
      some (ProcResult.mk 2 [2] [[grayColor 255], [grayColor 255]]) ∧
    ¬ ((8 : ℚ) ≤ 2) := by
  refine ⟨?_, ?_, by norm_num⟩ <;>
    norm_num [process_audio_data, downmixChunks, ringPushAll, ringPush,
      normalized_values, F32.div, F32.mulc, f32toU8, grayColor, push_row,
      rawOf1, f32MIN, max_def]

/-- Claim C2 (amended): only the monolithic variant (src/app.rs) updates the
running peak monotonically, returning max(previous peak, new spectrum max);
the modular variant (src/app/audio.rs) overwrites the shared max_value with
the new spectrum maximum alone on every transform update, so its running
value can decrease between updates. -/
theorem peak_update_policies :
    (∀ (rawValues : List ℚ → List ℚ) (log10 : ℚ → ℚ) (g : ℚ)
        (data ad : List ℚ) (rc : List (List Color32)) (r : ProcResult),
      process_audio_data_mono rawValues log10 g data ad rc = some r →
      g ≤ r.max_value) ∧
    (∀ (fft_size : ℕ) (rawValues : List ℚ → List ℚ) (g : ℚ) (data ad : List ℚ)
        (rc : List (List Color32)) (r : ProcResult) (monos : List ℚ),
      downmixChunks data = some monos →
      process_audio_data fft_size rawValues g data ad rc = some r →
      (ringPushAll fft_size ad monos).length = fft_size →
      r.max_value = (rawValues (ringPushAll fft_size ad monos)).foldl max f32MIN) := by
  constructor
  · intro raws log10 g data ad rc r hp
    rw [process_audio_data_mono] at hp
    cases hdm : downmixChunks data with
    | none =>
      rw [hdm] at hp
      simp at hp
    | some monos =>
      rw [hdm] at hp
      simp only [Option.map_some', Option.some_inj] at hp
      subst hp
      split
      · split
        · next hlt => exact le_of_lt hlt
        · exact le_refl g
      · exact le_refl g
  · intro fs raws g data ad rc r monos hdm hp hfull
    rw [process_audio_data, hdm] at hp
    simp only [Option.map_some', Option.some_inj] at hp
    subst hp
    rw [if_pos hfull]

/-- Witness for C2 (amended): the monolithic half on the not-yet-full frame
[1, 2] (peak 0 preserved), and the modular half on the session step that
fills the fft_size-1 buffer with the sample 0. -/
theorem peak_update_policies_witness :
    (0 : ℚ) ≤ (ProcResult.mk 0 [3 / 2] []).max_value ∧
    (ProcResult.mk 0 [0] [[grayColor 0]]).max_value =
      (rawOf1 (ringPushAll 1 ([] : List ℚ) [0])).foldl max f32MIN := by
  constructor
  · exact peak_update_policies.1 rawOf1 (fun _ => 0) 0 [1, 2] [] []
      (ProcResult.mk 0 [3 / 2] [])
      (by norm_num [process_audio_data_mono, downmixChunks, ringPushAll, ringPush,
        FFT_SIZE])
  · exact peak_update_policies.2 1 rawOf1 0 [0, 0] [] []
      (ProcResult.mk 0 [0] [[grayColor 0]]) [0]
      (by norm_num [downmixChunks])
      (by norm_num [process_audio_data, downmixChunks, ringPushAll, ringPush,
        normalized_values, F32.div, F32.mulc, f32toU8, grayColor, push_row,
        rawOf1, f32MIN, max_def])
      (by norm_num [ringPushAll, ringPush])

/-- Claim C3 (code bug): there is no zero-peak guard.  When the buffer fills
with silence, every bin magnitude is 0, the freshly computed row maximum is
0, and the normalization divides 0 by 0, producing NaN for every bin; the
stored intensity byte is 0 only because the Rust cast `as u8` incidentally
maps NaN to 0. -/
theorem zero_peak_produces_nan :
    normalized_values (rawOf1 [0]) ((rawOf1 [0]).foldl max f32MIN) = [F32.nan] ∧
    process_audio_data 1 rawOf1 0 [0, 0] [] [] =
      some (ProcResult.mk 0 [0] [[grayColor 0]]) := by
  constructor <;>
    norm_num [normalized_values, process_audio_data, downmixChunks, ringPushAll,
      ringPush, F32.div, F32.mulc, f32toU8, grayColor, push_row, rawOf1, f32MIN,
      max_def]

end Js8

namespace Js8

/-- Claim C5 counterexample: a session at fft_size 1 whose running peak is
already 8 receives the frame [4, 4] (bin magnitude 4).  The stored intensity
byte is 255 = round-down of (4 / 4) * 255, i.e. the magnitude divided by the
row's own maximum; the claim's rule magnitude / RunningPeak clamped to [0,1]
would store (4 / 8) * 255 truncated = 127. -/
theorem per_row_normalization_counterexample :
    process_audio_data 1 rawOf1 8 [4, 4] [8] [[grayColor 255]] =
      some (ProcResult.mk 4 [4] [[grayColor 255], [grayColor 255]]) ∧
    f32toU8 (F32.mulc (F32.div (F32.fin 4) (F32.fin 8)) 255) = 127 ∧
    (255 : ℕ) ≠ 127 := by
  refine ⟨?_, ?_, by norm_num⟩
  · norm_num [process_audio_data, downmixChunks, ringPushAll, ringPush,
      normalized_values, F32.div, F32.mulc, f32toU8, grayColor, push_row,
      rawOf1, f32MIN, max_def]
  · norm_num [F32.div, F32.mulc, f32toU8, Rat.floor_def']
    rfl

/-- Claim C5 (amended): the modular variant's linear normalization divides
each bin magnitude by the maximum of the current row's spectrum (a per-row
quantity recomputed at every update, not the session running peak).  When
that row maximum is positive, every quotient is an ordinary finite value
lying in [0, 1] without any explicit clamp, because each non-negative
magnitude is bounded by the row maximum. -/
theorem per_row_linear_normalization (raw : List ℚ)
    (hnn : ∀ x ∈ raw, 0 ≤ x) (hpos : 0 < raw.foldl max f32MIN) :
    normalized_values raw (raw.foldl max f32MIN) =
      raw.map (fun x => F32.fin (x / raw.foldl max f32MIN)) ∧
    ∀ x ∈ raw, 0 ≤ x / raw.foldl max f32MIN ∧ x / raw.foldl max f32MIN ≤ 1 := by
  have hub : ∀ x ∈ raw, x ≤ raw.foldl max f32MIN := (foldl_max_bounds raw f32MIN).2
  constructor
  · rw [normalized_values]
    apply List.map_congr_left
    intro x _
    rw [F32.div]
    rw [if_neg hpos.ne']
  · intro x hx
    exact ⟨div_nonneg (hnn x hx) hpos.le,
      div_le_one_of_le₀ (hub x hx) hpos.le⟩

/-- Witness for C5 (amended) on the spectrum [2, 4] with row maximum 4. -/
theorem per_row_linear_normalization_witness :
    normalized_values [(2 : ℚ), 4] (([(2 : ℚ), 4]).foldl max f32MIN) =
      ([(2 : ℚ), 4]).map (fun x => F32.fin (x / ([(2 : ℚ), 4]).foldl max f32MIN)) ∧
    0 ≤ (2 : ℚ) / ([(2 : ℚ), 4]).foldl max f32MIN ∧
      (2 : ℚ) / ([(2 : ℚ), 4]).foldl max f32MIN ≤ 1 := by
  have h := per_row_linear_normalization [(2 : ℚ), 4]
    (by intro x hx; rcases List.mem_cons.mp hx with h | h
        · subst h; norm_num
        · simp at h; subst h; norm_num)
    (by norm_num [f32MIN, max_def])
  exact ⟨h.1, h.2 2 (by norm_num)⟩

/-- Claim C9 (confirmed): for every frame of even length, the downmix loop
produces one mono sample per two-channel slot, equal to the arithmetic mean
of the two interleaved channel samples at that slot. -/
theorem downmix_is_pairwise_mean :
    ∀ frame : List ℚ, frame.length % 2 = 0 →
      (downmixChunks frame).isSome = true ∧
      ∀ mono, downmixChunks frame = some mono →
        2 * mono.length = frame.length ∧
        ∀ i, i < mono.length →
          mono.getD i 0 = (frame.getD (2 * i) 0 + frame.getD (2 * i + 1) 0) / 2
  | [], _ => by
    refine ⟨rfl, ?_⟩
    intro mono hm
    obtain rfl : mono = [] := by
      simpa [downmixChunks] using hm.symm
    refine ⟨rfl, ?_⟩
    intro i hi
    simp at hi
  | [_], h => by simp at h
  | a :: b :: rest, h => by
    have h2 : rest.length % 2 = 0 := by
      simp only [List.length_cons] at h
      omega
    obtain ⟨hs, hall⟩ := downmix_is_pairwise_mean rest h2
    cases hmr : downmixChunks rest with
    | none =>
      rw [hmr] at hs
      simp at hs
    | some mr =>
      obtain ⟨hlen, hpt⟩ := hall mr hmr
      constructor
      · simp [downmixChunks, hmr]
      · intro mono hm
        rw [show downmixChunks (a :: b :: rest) =
            (downmixChunks rest).map (fun t => (a + b) / 2 :: t) from rfl, hmr] at hm
        simp only [Option.map_some', Option.some_inj] at hm
        subst hm
        constructor
        · simp only [List.length_cons]
          omega
        · intro i hi
          cases i with
          | zero => simp
          | succ j =>
            have hj : j < mr.length := by
              simp only [List.length_cons] at hi
              omega
            have hp := hpt j hj
            have e1 : 2 * (j + 1) = 2 * j + 1 + 1 := by ring
            rw [e1]
            simp only [List.getD_cons_succ]
            exact hp

/-- Witness for C9 at the frame [1, 3, 5, 7], whose first mono sample is the
mean of the first two channel samples. -/
theorem downmix_is_pairwise_mean_witness :
    ([(2 : ℚ), 6]).getD 0 0 =
      (([(1 : ℚ), 3, 5, 7]).getD (2 * 0) 0 +
        ([(1 : ℚ), 3, 5, 7]).getD (2 * 0 + 1) 0) / 2 :=
  ((downmix_is_pairwise_mean [(1 : ℚ), 3, 5, 7] (by simp)).2 [2, 6]
    (by norm_num [downmixChunks])).2 0 (by norm_num)

/-- Claim C10 (confirmed): every color stored into the history by the
modular process_audio_data (any row of the result that was not already in
the history) is grayscale: its green and blue channels equal its red
channel, which holds the computed 8-bit intensity, so the render paths,
which read back only the red channel, recover the full stored intensity. -/
theorem stored_colors_grayscale (fft_size : ℕ) (rawValues : List ℚ → List ℚ)
    (g : ℚ) (data ad : List ℚ) (rc : List (List Color32)) (r : ProcResult)
    (row : List Color32) (c : Color32)
    (hp : process_audio_data fft_size rawValues g data ad rc = some r)
    (hrow : row ∈ r.row_colors) (hnew : row ∉ rc) (hc : c ∈ row) :
    c.g = c.r ∧ c.b = c.r := by
  rw [process_audio_data] at hp
  cases hdm : downmixChunks data with
  | none =>
    rw [hdm] at hp
    simp at hp
  | some monos =>
    rw [hdm] at hp
    simp only [Option.map_some', Option.some_inj] at hp
    have hrc : r.row_colors =
        push_row rc
          ((normalized_values (rawValues (ringPushAll fft_size ad monos))
              ((rawValues (ringPushAll fft_size ad monos)).foldl max f32MIN)).map
            fun x => grayColor (f32toU8 (F32.mulc x 255))) ∨
        r.row_colors = rc := by
      rw [← hp]
      split
      · exact Or.inl rfl
      · exact Or.inr rfl
    rcases hrc with hrc | hrc
    · rw [hrc] at hrow
      rcases mem_of_mem_push_row hrow with h1 | h1
      · exact absurd h1 hnew
      · subst h1
        rcases List.mem_map.mp hc with ⟨x, _, rfl⟩
        exact ⟨rfl, rfl⟩
    · rw [hrc] at hrow
      exact absurd hrow hnew

/-- Witness for C10 on a gate-open update whose stored row is
[grayColor 255]. -/
theorem stored_colors_grayscale_witness :
    (grayColor 255).g = (grayColor 255).r ∧ (grayColor 255).b = (grayColor 255).r :=
  stored_colors_grayscale 1 rawOf1 0 [6, 8] [] []
    (ProcResult.mk 7 [7] [[grayColor 255]]) [grayColor 255] (grayColor 255)
    (by norm_num [process_audio_data, downmixChunks, ringPushAll, ringPush,
      normalized_values, F32.div, F32.mulc, f32toU8, grayColor, push_row,
      rawOf1, f32MIN, max_def])
    (by simp) (by simp) (by simp)

end Js8
